import Mathlib

/-!
# go-soundboard: status feed and audio-process registry

A shallow embedding of the two stateful parts of the program:

* `ui/ui.go`: the status list (`App.statusList`, a `tview.List`) together with
  the counter `App.soundCount`, and the three background actions `playSound`,
  `save` and the download button handler that write to it;
* `audio/audio.go`: the process-wide `nowPlaying` map of running `mpg321`
  commands, `playLocal`, `playRemote` and `StopAll`.

Go `int` values are modelled by `Nat`/`Int`: `soundCount` only ever counts
insertions into the status list, so it stays far below `2^63`.
The calls into the controller, the network and the operating system are
parameters of the definitions (their outcome is an argument).
-/

namespace Soundboard

/-! ## The status list (`tview.List` as used by `ui/ui.go`) -/

/-- One line of a `tview.List`. `MainText` is the text shown. `owner` is a
ghost label that no operation reads: it records which status reference (the
value returned by `getStatusReference`) belonged to the block that allocated
the item, and is `none` for the items appended by `Info` and `Error`. It stands
for the identity of the `*listItem` that Go allocates on every insertion. -/
structure listItem where
  MainText : String
  owner : Option Nat
deriving DecidableEq, Repr

/-- `tview.List.GetItemCount`. -/
def GetItemCount (items : List listItem) : Int :=
  (items.length : Int)

/-- `tview.List.InsertItem`: a negative index counts from the end (`-1` is the
position after the last item), the index is then clamped to `0 .. len`, and the
item is placed at that index with the later items shifted by one. -/
def InsertItem (items : List listItem) (index : Int) (item : listItem) : List listItem :=
  let n : Int := items.length
  let index := if index < 0 then n + index + 1 else index
  let index := if index < 0 then 0 else if index > n then n else index
  items.take index.toNat ++ item :: items.drop index.toNat

/-- `tview.List.AddItem`, which is `InsertItem(-1, ...)`. -/
def AddItem (items : List listItem) (item : listItem) : List listItem :=
  InsertItem items (-1) item

/-- Replace the main text of the item at position `i`, keeping the item. -/
def setTextAt : List listItem → Nat → String → List listItem
  | [], _, _ => []
  | e :: es, 0, main => { e with MainText := main } :: es
  | e :: es, i + 1, main => e :: setTextAt es i main

/-- `tview.List.SetItemText`: `item := l.items[index]; item.MainText = main`.
Indexing outside the slice panics, which is the result `none`. -/
def SetItemText (items : List listItem) (index : Int) (main : String) :
    Option (List listItem) :=
  if 0 ≤ index ∧ index < items.length then some (setTextAt items index.toNat main)
  else none

/-! ## The part of `App` that the status feed uses -/

/-- The fields `statusList` and `soundCount` of `ui.App`. -/
structure App where
  statusList : List listItem
  soundCount : Nat
deriving DecidableEq, Repr

/-- The application right after `NewApp`: no status line, counter at zero. -/
def App.empty : App := ⟨[], 0⟩

/-- The texts of the status list from top to bottom, as they are drawn. -/
def App.snapshot (a : App) : List String :=
  a.statusList.map listItem.MainText

/-- `App.getStatusReference`: `a.soundCount++; id := a.soundCount; return id`. -/
def getStatusReference (a : App) : App × Nat :=
  ({ a with soundCount := a.soundCount + 1 }, a.soundCount + 1)

/-- The block that `playSound`, `save` and the download handler each run first
while holding `statusLock`: take a status reference and insert the text at
position 0 (`ui.go` lines 131-136, 242-247, 267-272). Returns the reference.
`SetCurrentItem(0)` moves the selection only and is left out, as is `Draw`. -/
def Begin (a : App) (text : String) : App × Nat :=
  let r := getStatusReference a
  ({ r.1 with statusList := InsertItem r.1.statusList 0 ⟨text, some r.2⟩ }, r.2)

/-- The block the same three actions run last while holding `statusLock`:
`index = a.statusList.GetItemCount() - index` followed by `SetItemText(index, text)`
(`ui.go` lines 149-152, 253-262, 279-282). -/
def Update (a : App) (id : Nat) (text : String) : Option App :=
  let index : Int := GetItemCount a.statusList - (id : Int)
  (SetItemText a.statusList index text).map fun l => { a with statusList := l }

/-- `App.Info`: append a line at the end of the status list. -/
def Info (a : App) (text : String) : App :=
  { a with statusList := AddItem a.statusList ⟨"👉 " ++ text, none⟩ }

/-- `App.Error`: append a line at the end of the status list. -/
def Error (a : App) (text : String) : App :=
  { a with statusList := AddItem a.statusList ⟨"🔴 " ++ text, none⟩ }

/-- `App.playSound`, with the result of `controller.PlaySound(file)` as the
argument `err` (`none` is a nil error). -/
def playSound (a : App) (file : String) (err : Option String) : Option App :=
  let b := Begin a ("🔈 " ++ file)
  let a1 := match err with
    | some e => Error b.1 e
    | none => b.1
  Update a1 b.2 ("🔇 " ++ file)

/-- `App.save`, with the result of `controller.Save()` as the argument `err`. -/
def save (a : App) (err : Option String) : Option App :=
  let b := Begin a "🧐 saving data.json..."
  match err with
  | some e => Update b.1 b.2 ("😔 could not save: " ++ e)
  | none => Update b.1 b.2 "😄 saved data.json!"

/-- The goroutine started by the download button (`ui.go` lines 128-155), with
the result of `controller.DownloadFile(file)` as the argument `result` and
`filepath.Base` as the argument `Base`. The form and focus changes between the
two locked blocks do not touch the status list. -/
def download (a : App) (file : String) (result : Except String String)
    (Base : String → String) : Option App :=
  let b := Begin a ("⏬ downloading " ++ file)
  match result with
  | .error e => some (Error b.1 e)
  | .ok _ => Update b.1 b.2 ("👍 downloaded " ++ Base file)

/-! ## Interleavings of the locked blocks -/

/-- One atomic step on the status feed: a `Begin` block, an `Update` block, or
an append at the tail by `Info` or by `Error`. -/
inductive FeedStep where
  | begin (text : String)
  | update (id : Nat) (text : String)
  | info (text : String)
  | error (text : String)
deriving DecidableEq, Repr

/-- Effect of one step; `none` when `SetItemText` panics. -/
def FeedStep.apply (a : App) : FeedStep → Option App
  | .begin text => some (Begin a text).1
  | .update id text => Update a id text
  | .info text => some (Info a text)
  | .error text => some (Error a text)

/-- Run the steps in order, stopping with `none` at a panic. -/
def runFeed : App → List FeedStep → Option App
  | a, [] => some a
  | a, st :: rest => (st.apply a).bind fun a1 => runFeed a1 rest

/-- The states visited by a run, the start included, up to a panic. -/
def feedStates : App → List FeedStep → List App
  | a, [] => [a]
  | a, st :: rest =>
    match st.apply a with
    | some a1 => a :: feedStates a1 rest
    | none => [a]

/-- A trace made of `Begin` blocks and of `Update` blocks that use a reference
some earlier `Begin` of the trace returned; `n` is the number of references
handed out before the trace starts. -/
def ownUpdates : Nat → List FeedStep → Bool
  | _, [] => true
  | n, .begin _ :: rest => ownUpdates (n + 1) rest
  | n, .update id _ :: rest => decide (1 ≤ id) && decide (id ≤ n) && ownUpdates n rest
  | _, .info _ :: _ => false
  | _, .error _ :: _ => false

/-- The owner labels of a feed built by `n` `Begin` blocks alone, newest first:
`n, n - 1, ..., 1`. -/
def ownersDown : Nat → List (Option Nat)
  | 0 => []
  | n + 1 => some (n + 1) :: ownersDown n

/-- Rewrite the text of an entry labelled `id`, keep any other entry. -/
def retext (id : Nat) (text : String) (e : listItem) : listItem :=
  if e.owner = some id then { e with MainText := text } else e

/-! ## The audio process registry (`audio/audio.go`) -/

/-- The operating-system process behind a command whose `Start` succeeded. -/
inductive ProcessState where
  | running
  | exited
deriving DecidableEq, Repr

/-- `os.Process.Signal` on an existing process: the error it returns, if any
(a process that already finished reports an error). -/
def Signal : ProcessState → Option String
  | .running => none
  | .exited => some "os: process already finished"

/-- The fields of `exec.Cmd` that matter here. `Process` is nil (`none`) from
`exec.Command` until `Start` has succeeded. -/
structure Cmd where
  Args : List String
  Process : Option ProcessState
deriving DecidableEq, Repr

/-- The commands allocated so far and the `nowPlaying` map. A `*exec.Cmd` is
its position in `heap`, so every `exec.Command` yields a new pointer. The
`sync.Map` is the list of its key/value pairs. -/
structure Audio where
  heap : List Cmd
  nowPlaying : List (Nat × Bool)
deriving DecidableEq, Repr

/-- The program start: nothing allocated, `nowPlaying = &sync.Map{}`. -/
def Audio.init : Audio := ⟨[], []⟩

/-- The keys of a `sync.Map`. -/
def keys (m : List (Nat × Bool)) : List Nat :=
  m.map Prod.fst

/-- `sync.Map.Delete`. -/
def Delete (m : List (Nat × Bool)) (key : Nat) : List (Nat × Bool) :=
  m.filter fun e => e.1 != key

/-- `sync.Map.Store`: the key is afterwards bound to the value, once. -/
def Store (m : List (Nat × Bool)) (key : Nat) (value : Bool) : List (Nat × Bool) :=
  (key, value) :: Delete m key

/-- `sync.Map.Range`: call `f` on every pair, stop early when it returns
`false`; a panic in `f` (`none`) ends the whole call. -/
def Range {σ : Type} (f : Nat → Bool → σ → Option (σ × Bool)) :
    List (Nat × Bool) → σ → Option σ
  | [], acc => some acc
  | (k, v) :: rest, acc =>
    match f k v acc with
    | none => none
    | some (acc1, true) => Range f rest acc1
    | some (acc1, false) => some acc1

/-- Apply `f` to the command at address `h`. -/
def updateCmd : List Cmd → Nat → (Cmd → Cmd) → List Cmd
  | [], _, _ => []
  | c :: cs, 0, f => f c :: cs
  | c :: cs, h + 1, f => c :: updateCmd cs h f

/-- `exec.Command(name, arg...)`: a new command without a process, whose
`Args` are the program name followed by the arguments. -/
def Command (s : Audio) (name : String) (arg : List String) : Audio × Nat :=
  ({ s with heap := s.heap ++ [⟨name :: arg, none⟩] }, s.heap.length)

/-- `cmd.Start` when the process could be started: `cmd.Process` gets set. -/
def Start (s : Audio) (cmd : Nat) : Audio :=
  { s with heap := updateCmd s.heap cmd fun c => { c with Process := some .running } }

/-- The process ends and `cmd.Wait` returns. -/
def Wait (s : Audio) (cmd : Nat) : Audio :=
  { s with heap := updateCmd s.heap cmd fun c => { c with Process := some .exited } }

/-- What happens inside `cmd.Run()`: either `Start` fails with an error and no
process exists, or the process runs and exits, with or without an error. -/
inductive RunOutcome where
  | startFailed (err : String)
  | exited (err : Option String)
deriving DecidableEq, Repr

/-- `cmd.Run()`, which is `Start` followed by `Wait`. -/
def Run (s : Audio) (cmd : Nat) : RunOutcome → Audio × Option String
  | .startFailed err => (s, some err)
  | .exited err => (Wait (Start s cmd) cmd, err)

/-- `playLocal`: create the command, `Store` it, run it; the deferred `Delete`
runs on return. -/
def playLocal (s : Audio) (filepath : String) (out : RunOutcome) : Audio × Option String :=
  let c := Command s "mpg321" [filepath]
  let s1 := { c.1 with nowPlaying := Store c.1.nowPlaying c.2 true }
  let r := Run s1 c.2 out
  ({ r.1 with nowPlaying := Delete r.1.nowPlaying c.2 }, r.2)

/-- The errors that `url.Parse`, `http.Get` and `io.ReadAll` return in
`playRemote` (`none` is a nil error). -/
structure RemoteEnv where
  parseErr : Option String
  getErr : Option String
  readErr : Option String
deriving DecidableEq, Repr

/-- The first error among the three calls that precede `exec.Command`. -/
def RemoteEnv.firstErr (env : RemoteEnv) : Option String :=
  match env.parseErr with
  | some e => some e
  | none =>
    match env.getErr with
    | some e => some e
    | none => env.readErr

/-- `playRemote`: three early returns on error, then the same steps as
`playLocal` with the argument `-`. -/
def playRemote (s : Audio) (env : RemoteEnv) (out : RunOutcome) : Audio × Option String :=
  match env.parseErr with
  | some e => (s, some e)
  | none =>
    match env.getErr with
    | some e => (s, some e)
    | none =>
      match env.readErr with
      | some e => (s, some e)
      | none =>
        let c := Command s "mpg321" ["-"]
        let s1 := { c.1 with nowPlaying := Store c.1.nowPlaying c.2 true }
        let r := Run s1 c.2 out
        ({ r.1 with nowPlaying := Delete r.1.nowPlaying c.2 }, r.2)

/-- `Play`: remote for `http://` and `https://`, local otherwise. -/
def Play (s : Audio) (filepath : String) (env : RemoteEnv) (out : RunOutcome) :
    Audio × Option String :=
  if String.isPrefixOf "http://" filepath || String.isPrefixOf "https://" filepath then
    playRemote s env out
  else playLocal s filepath out

/-- The callback of `StopAll`: `_ = cmd.Process.Signal(os.Interrupt); return true`.
The log gets the command and the error that `Signal` returned and that the
code drops. Calling `Signal` through a nil `cmd.Process` is a nil pointer
dereference, the result `none`. -/
def stopOne (s : Audio) (key : Nat) (_value : Bool) (log : List (Nat × Option String)) :
    Option (List (Nat × Option String) × Bool) :=
  match (s.heap[key]?).bind Cmd.Process with
  | none => none
  | some p => some (log ++ [(key, Signal p)], true)

/-- `StopAll`: `Range` over `nowPlaying` with `stopOne`. Returns the state it
leaves and the log of the signals sent; `none` is a panic. -/
def StopAll (s : Audio) : Option (Audio × List (Nat × Option String)) :=
  (Range (stopOne s) s.nowPlaying []).map fun log => (s, log)

/-! ## Interleavings of the steps of the play functions with `StopAll` -/

/-- Where the call that owns a command stands in `playLocal`/`playRemote`. -/
inductive Phase where
  | created
  | registered
  | started
  | returned
  | unregistered
deriving DecidableEq, Repr

/-- The audio state with the program counter of the call behind each command,
`pcs[h]` for the command at address `h`. -/
structure Machine where
  audio : Audio
  pcs : List Phase
deriving DecidableEq, Repr

/-- No call has started. -/
def Machine.init : Machine := ⟨Audio.init, []⟩

/-- Set the program counter of command `h`. -/
def setPc : List Phase → Nat → Phase → List Phase
  | [], _, _ => []
  | _ :: ps, 0, p => p :: ps
  | q :: ps, h + 1, p => q :: setPc ps h p

/-- The atomic steps: the five steps of a play call on its command, in program
order, and a whole `StopAll`. -/
inductive AudioStep where
  | create (arg : List String)
  | register (h : Nat)
  | start (h : Nat) (ok : Bool)
  | exit (h : Nat)
  | unregister (h : Nat)
  | stopAll
deriving DecidableEq, Repr

/-- Effect of a step; `none` when the step is not the next one of its call, or
when `StopAll` panics. -/
def AudioStep.apply (m : Machine) : AudioStep → Option Machine
  | .create arg => some ⟨(Command m.audio "mpg321" arg).1, m.pcs ++ [.created]⟩
  | .register h =>
    if m.pcs[h]? = some .created then
      some ⟨{ m.audio with nowPlaying := Store m.audio.nowPlaying h true },
        setPc m.pcs h .registered⟩
    else none
  | .start h ok =>
    if m.pcs[h]? = some .registered then
      if ok then some ⟨Start m.audio h, setPc m.pcs h .started⟩
      else some ⟨m.audio, setPc m.pcs h .returned⟩
    else none
  | .exit h =>
    if m.pcs[h]? = some .started then some ⟨Wait m.audio h, setPc m.pcs h .returned⟩
    else none
  | .unregister h =>
    if m.pcs[h]? = some .returned then
      some ⟨{ m.audio with nowPlaying := Delete m.audio.nowPlaying h },
        setPc m.pcs h .unregistered⟩
    else none
  | .stopAll => (StopAll m.audio).map fun r => ⟨r.1, m.pcs⟩

/-- Run the steps in order. -/
def runAudio : Machine → List AudioStep → Option Machine
  | m, [] => some m
  | m, st :: rest => (st.apply m).bind fun m1 => runAudio m1 rest

/-- Every command in `nowPlaying` has `cmd.Process` set. -/
def allStarted (s : Audio) : Bool :=
  (keys s.nowPlaying).all fun h => ((s.heap[h]?).bind Cmd.Process).isSome

/-! # Theorems -/

/-! ## Lemmas on the status list -/

theorem InsertItem_zero (items : List listItem) (item : listItem) :
    InsertItem items 0 item = item :: items := by
  have h1 : ¬ ((items.length : Int) < 0) := by omega
  simp [InsertItem, h1]

theorem AddItem_eq_append (items : List listItem) (item : listItem) :
    AddItem items item = items ++ [item] := by
  have h1 : ¬ ((items.length : Int) < 0) := by omega
  simp [AddItem, InsertItem, h1]

theorem setTextAt_length (items : List listItem) (i : Nat) (main : String) :
    (setTextAt items i main).length = items.length := by
  induction items generalizing i with
  | nil => rfl
  | cons e es ih =>
    cases i with
    | zero => rfl
    | succ i => simp [setTextAt, ih]

theorem setTextAt_owner (items : List listItem) (i : Nat) (main : String) :
    (setTextAt items i main).map listItem.owner = items.map listItem.owner := by
  induction items generalizing i with
  | nil => rfl
  | cons e es ih =>
    cases i with
    | zero => rfl
    | succ i => simp [setTextAt, ih]

theorem Begin_statusList (a : App) (text : String) :
    (Begin a text).1.statusList = ⟨text, some (a.soundCount + 1)⟩ :: a.statusList := by
  simp [Begin, getStatusReference, InsertItem_zero]

theorem Begin_soundCount (a : App) (text : String) :
    (Begin a text).1.soundCount = a.soundCount + 1 := rfl

theorem Begin_id (a : App) (text : String) : (Begin a text).2 = a.soundCount + 1 := rfl

theorem Error_statusList (a : App) (text : String) :
    (Error a text).statusList = a.statusList ++ [⟨"🔴 " ++ text, none⟩] := by
  simp [Error, AddItem_eq_append]

theorem Info_statusList (a : App) (text : String) :
    (Info a text).statusList = a.statusList ++ [⟨"👉 " ++ text, none⟩] := by
  simp [Info, AddItem_eq_append]

/-- `Update` succeeds exactly when `1 ≤ id ≤ len`, and then rewrites position
`len - id`. -/
theorem Update_eq_some (a : App) (id : Nat) (text : String)
    (h1 : 1 ≤ id) (h2 : id ≤ a.statusList.length) :
    Update a id text =
      some { a with statusList := setTextAt a.statusList (a.statusList.length - id) text } := by
  have hr : (0 : Int) ≤ (a.statusList.length : Int) - (id : Int) ∧
      (a.statusList.length : Int) - (id : Int) < (a.statusList.length : Int) := by omega
  have ht : ((a.statusList.length : Int) - (id : Int)).toNat = a.statusList.length - id := by
    omega
  simp [Update, SetItemText, GetItemCount, hr, ht]

theorem Update_eq_none (a : App) (id : Nat) (text : String)
    (h : id = 0 ∨ a.statusList.length < id) : Update a id text = none := by
  have hr : ¬ ((0 : Int) ≤ (a.statusList.length : Int) - (id : Int) ∧
      (a.statusList.length : Int) - (id : Int) < (a.statusList.length : Int)) := by omega
  unfold Update SetItemText GetItemCount
  simp only []
  rw [if_neg hr]
  rfl

theorem Update_length (a a1 : App) (id : Nat) (text : String)
    (h : Update a id text = some a1) :
    a1.statusList.length = a.statusList.length ∧ a1.soundCount = a.soundCount := by
  by_cases hid : 1 ≤ id ∧ id ≤ a.statusList.length
  · rw [Update_eq_some a id text hid.1 hid.2] at h
    cases h
    simp [setTextAt_length]
  · rw [Update_eq_none a id text (by omega)] at h
    cases h

theorem setTextAt_MainText (items : List listItem) (i : Nat) (main : String) :
    (setTextAt items i main).map listItem.MainText = (items.map listItem.MainText).set i main := by
  induction items generalizing i with
  | nil => rfl
  | cons e es ih =>
    cases i with
    | zero => rfl
    | succ i => simp [setTextAt, ih]

/-- On the texts alone, `Update` is "set the text at index `len - id`": the
owner labels play no part in what is drawn. -/
theorem Update_snapshot (a : App) (id : Nat) (text : String)
    (h1 : 1 ≤ id) (h2 : id ≤ a.statusList.length) :
    (Update a id text).map App.snapshot =
      some (a.snapshot.set (a.statusList.length - id) text) := by
  rw [Update_eq_some a id text h1 h2]
  simp [App.snapshot, setTextAt_MainText]

/-! ## Invariants of the status feed -/

/-- Every step that does not panic keeps `soundCount ≤ len(statusList)`. -/
theorem apply_count_le (a a1 : App) (st : FeedStep) (h : st.apply a = some a1)
    (hinv : a.soundCount ≤ a.statusList.length) :
    a1.soundCount ≤ a1.statusList.length := by
  cases st with
  | begin text =>
    simp only [FeedStep.apply, Option.some.injEq] at h
    subst h
    rw [Begin_statusList, Begin_soundCount]
    simp
    exact hinv
  | update id text =>
    obtain ⟨hl, hc⟩ := Update_length a a1 id text h
    omega
  | info text =>
    simp only [FeedStep.apply, Option.some.injEq] at h
    subst h
    rw [Info_statusList]
    simp [Info]
    omega
  | error text =>
    simp only [FeedStep.apply, Option.some.injEq] at h
    subst h
    rw [Error_statusList]
    simp [Error]
    omega

theorem runFeed_count_le (trace : List FeedStep) (a a1 : App)
    (h : runFeed a trace = some a1) (hinv : a.soundCount ≤ a.statusList.length) :
    a1.soundCount ≤ a1.statusList.length := by
  induction trace generalizing a with
  | nil =>
    simp only [runFeed, Option.some.injEq] at h
    subst h
    exact hinv
  | cons st rest ih =>
    simp only [runFeed] at h
    cases hst : st.apply a with
    | none => rw [hst] at h; cases h
    | some a2 =>
      rw [hst] at h
      exact ih a2 h (apply_count_le a a2 st hst hinv)

/-- Every step that does not panic keeps or grows the number of entries. -/
theorem apply_length_le (a a1 : App) (st : FeedStep) (h : st.apply a = some a1) :
    a.statusList.length ≤ a1.statusList.length := by
  cases st with
  | begin text =>
    simp only [FeedStep.apply, Option.some.injEq] at h
    subst h
    rw [Begin_statusList]
    simp
  | update id text =>
    obtain ⟨hl, _⟩ := Update_length a a1 id text h
    omega
  | info text =>
    simp only [FeedStep.apply, Option.some.injEq] at h
    subst h
    rw [Info_statusList]
    simp
  | error text =>
    simp only [FeedStep.apply, Option.some.injEq] at h
    subst h
    rw [Error_statusList]
    simp

theorem feedStates_head (a : App) (trace : List FeedStep) :
    (feedStates a trace).head? = some a := by
  cases trace with
  | nil => rfl
  | cons st rest =>
    simp only [feedStates]
    cases st.apply a <;> rfl

theorem feedStates_chain (trace : List FeedStep) (a : App) :
    List.Chain' (fun x y : App => x.statusList.length ≤ y.statusList.length)
      (feedStates a trace) := by
  induction trace generalizing a with
  | nil => simp [feedStates]
  | cons st rest ih =>
    simp only [feedStates]
    cases hst : st.apply a with
    | none => simp
    | some a1 =>
      simp only []
      refine List.Chain'.cons' (ih a1) ?_
      intro y hy
      rw [feedStates_head] at hy
      cases hy
      exact apply_length_le a a1 st hst

/-! ## Owner labels in a feed built by `Begin` and `Update` alone -/

theorem ownersDown_length (n : Nat) : (ownersDown n).length = n := by
  induction n with
  | zero => rfl
  | succ n ih => simp [ownersDown, ih]

theorem ownersDown_lt (n id : Nat) (h : n < id) : some id ∉ ownersDown n := by
  induction n with
  | zero => simp [ownersDown]
  | succ n ih =>
    simp only [ownersDown, List.mem_cons, not_or]
    refine ⟨?_, ih (by omega)⟩
    intro he
    cases he
    omega

theorem retext_absent (items : List listItem) (id : Nat) (text : String)
    (h : some id ∉ items.map listItem.owner) : items.map (retext id text) = items := by
  induction items with
  | nil => rfl
  | cons e es ih =>
    simp only [List.map_cons, List.mem_cons, not_or] at h
    have he : ¬ e.owner = some id := fun hc => h.1 hc.symm
    simp [retext, he]
    exact ih h.2

theorem filter_absent (items : List listItem) (id : Nat)
    (h : some id ∉ items.map listItem.owner) :
    items.filter (fun e => decide (e.owner = some id)) = [] := by
  induction items with
  | nil => rfl
  | cons e es ih =>
    simp only [List.map_cons, List.mem_cons, not_or] at h
    have he : ¬ e.owner = some id := fun hc => h.1 hc.symm
    simp [List.filter_cons, he]
    intro x hx hxo
    apply h.2
    rw [← hxo]
    exact List.mem_map_of_mem _ hx

/-- In a feed whose labels are `n, ..., 1`, position `n - id` is the one entry
labelled `id`, so writing there rewrites that entry and nothing else. -/
theorem setTextAt_own (n : Nat) (items : List listItem) (id : Nat) (text : String)
    (hown : items.map listItem.owner = ownersDown n) (h1 : 1 ≤ id) (h2 : id ≤ n) :
    setTextAt items (n - id) text = items.map (retext id text) ∧
      (items.filter (fun e => decide (e.owner = some id))).length = 1 := by
  induction n generalizing items with
  | zero => omega
  | succ n ih =>
    cases items with
    | nil => simp [ownersDown] at hown
    | cons e es =>
      simp only [List.map_cons, ownersDown, List.cons.injEq] at hown
      obtain ⟨he, hes⟩ := hown
      by_cases hid : id = n + 1
      · subst hid
        have habs : some (n + 1) ∉ es.map listItem.owner := by
          rw [hes]; exact ownersDown_lt n (n + 1) (by omega)
        simp only [Nat.sub_self, setTextAt, List.map_cons]
        rw [retext_absent es (n + 1) text habs, List.filter_cons,
          filter_absent es (n + 1) habs]
        simp [retext, he]
      · have hne : ¬ e.owner = some id := by
          rw [he]; intro hc; cases hc; exact hid rfl
        have hsub : n + 1 - id = (n - id) + 1 := by omega
        obtain ⟨ih1, ih2⟩ := ih es hes (by omega)
        rw [hsub]
        simp only [setTextAt, List.map_cons, List.filter_cons]
        simp [retext, hne, ih1, ih2]

/-- A step of a trace of `Begin` blocks and own `Update` blocks never panics
and keeps the labels `soundCount, ..., 1`. -/
theorem runFeed_own (trace : List FeedStep) (a : App)
    (hinv : a.statusList.map listItem.owner = ownersDown a.soundCount)
    (hown : ownUpdates a.soundCount trace = true) :
    ∃ a1, runFeed a trace = some a1 ∧
      a1.statusList.map listItem.owner = ownersDown a1.soundCount := by
  induction trace generalizing a with
  | nil => exact ⟨a, rfl, hinv⟩
  | cons st rest ih =>
    have hlen : a.statusList.length = a.soundCount := by
      have := congrArg List.length hinv
      simpa [ownersDown_length] using this
    cases st with
    | begin text =>
      simp only [ownUpdates] at hown
      have hinv1 : (Begin a text).1.statusList.map listItem.owner =
          ownersDown (Begin a text).1.soundCount := by
        rw [Begin_statusList, Begin_soundCount]
        simp [ownersDown, hinv]
      obtain ⟨a1, hr, hi⟩ := ih (Begin a text).1 hinv1 hown
      exact ⟨a1, by simpa [runFeed, FeedStep.apply] using hr, hi⟩
    | update id text =>
      simp only [ownUpdates, Bool.and_eq_true, decide_eq_true_eq] at hown
      obtain ⟨⟨h1, h2⟩, hrest⟩ := hown
      have hu := Update_eq_some a id text h1 (by omega)
      have hinv1 : (App.mk (setTextAt a.statusList (a.statusList.length - id) text)
          a.soundCount).statusList.map listItem.owner = ownersDown a.soundCount := by
        simp [setTextAt_owner, hinv]
      obtain ⟨a1, hr, hi⟩ := ih _ hinv1 hrest
      exact ⟨a1, by simpa [runFeed, FeedStep.apply, hu] using hr, hi⟩
    | info text => simp [ownUpdates] at hown
    | error text => simp [ownUpdates] at hown

theorem ownUpdates_append (pre : List FeedStep) (n : Nat) (a a1 : App) (u : FeedStep)
    (hn : a.soundCount = n) (hrun : runFeed a pre = some a1)
    (hown : ownUpdates n (pre ++ [u]) = true) :
    ownUpdates n pre = true ∧ ownUpdates a1.soundCount [u] = true := by
  induction pre generalizing a n with
  | nil =>
    simp only [runFeed, Option.some.injEq] at hrun
    subst hrun
    subst hn
    exact ⟨rfl, by simpa using hown⟩
  | cons st rest ih =>
    simp only [runFeed] at hrun
    cases hst : st.apply a with
    | none => rw [hst] at hrun; cases hrun
    | some a2 =>
      rw [hst] at hrun
      simp only [Option.some_bind] at hrun
      cases st with
      | begin text =>
        simp only [FeedStep.apply, Option.some.injEq] at hst
        simp only [List.cons_append, ownUpdates] at hown ⊢
        exact ih (n + 1) a2 (by rw [← hst, Begin_soundCount, hn]) hrun hown
      | update id text =>
        simp only [List.cons_append, ownUpdates, Bool.and_eq_true] at hown ⊢
        obtain ⟨hc, _⟩ := Update_length a a2 id text hst
        obtain ⟨r1, r2⟩ := ih n a2 (by omega) hrun hown.2
        exact ⟨⟨hown.1, r1⟩, r2⟩
      | info text => simp [ownUpdates] at hown
      | error text => simp [ownUpdates] at hown

/-! ## The claims on the status feed -/

/-- C1 (token stability). Take any trace from the empty feed that consists of
`Begin` blocks and of `Update` blocks using a reference an earlier `Begin`
returned, followed by one more such `Update(id, text)`. The trace runs without
a panic; in the feed it reaches exactly one entry carries the label `id` (it is
the entry the `Begin` that returned `id` inserted), and the `Update` gives
that entry the new text and leaves every other entry, and the counter, as
they were. -/
theorem update_changes_own_entry (pre : List FeedStep) (id : Nat) (text : String)
    (h : ownUpdates 0 (pre ++ [.update id text]) = true) :
    ∃ a a1, runFeed App.empty pre = some a ∧ Update a id text = some a1 ∧
      (a.statusList.filter (fun e => decide (e.owner = some id))).length = 1 ∧
      a1.statusList = a.statusList.map (retext id text) ∧
      a1.soundCount = a.soundCount := by
  have h0 : App.empty.statusList.map listItem.owner = ownersDown App.empty.soundCount := rfl
  have hsplit : ∀ a, runFeed App.empty pre = some a →
      ownUpdates 0 pre = true ∧ ownUpdates a.soundCount [.update id text] = true :=
    fun a ha => ownUpdates_append pre 0 App.empty a _ rfl ha h
  have hpre : ownUpdates 0 pre = true := by
    clear hsplit
    generalize (0 : Nat) = n at h
    induction pre generalizing n with
    | nil => rfl
    | cons st rest ih =>
      cases st with
      | begin t => simpa [ownUpdates] using ih (n + 1) (by simpa [ownUpdates] using h)
      | update i t =>
        simp only [List.cons_append, ownUpdates, Bool.and_eq_true] at h ⊢
        exact ⟨h.1, ih n h.2⟩
      | info t => simp [ownUpdates] at h
      | error t => simp [ownUpdates] at h
  obtain ⟨a, hrun, hinv⟩ := runFeed_own pre App.empty h0 hpre
  have hlast := (hsplit a hrun).2
  simp only [ownUpdates, Bool.and_eq_true, decide_eq_true_eq, and_true] at hlast
  have hlen : a.statusList.length = a.soundCount := by
    have := congrArg List.length hinv
    simpa [ownersDown_length] using this
  have hu := Update_eq_some a id text hlast.1 (by omega)
  obtain ⟨hset, hcount⟩ := setTextAt_own a.soundCount a.statusList id text hinv hlast.1 hlast.2
  refine ⟨a, _, hrun, hu, hcount, ?_, rfl⟩
  simp only [hlen]
  exact hset

/-- C1 at a concrete interleaving: two `Begin` blocks, then the second
operation updates first, then the first one. -/
theorem update_changes_own_entry_witness :
    ownUpdates 0 ([.begin "🔈 a.mp3", .begin "🔈 b.mp3", .update 2 "🔇 b.mp3"] ++
        [.update 1 "🔇 a.mp3"]) = true ∧
      ∃ a a1, runFeed App.empty
          [.begin "🔈 a.mp3", .begin "🔈 b.mp3", .update 2 "🔇 b.mp3"] = some a ∧
        Update a 1 "🔇 a.mp3" = some a1 ∧
        (a.statusList.filter (fun e => decide (e.owner = some 1))).length = 1 ∧
        a1.statusList = a.statusList.map (retext 1 "🔇 a.mp3") ∧
        a1.soundCount = a.soundCount :=
  ⟨by decide, update_changes_own_entry _ 1 "🔇 a.mp3" (by decide)⟩

/-- After a failed `controller.PlaySound`, in every feed with
`soundCount ≤ len(statusList)`: `playSound` does not panic, the entry it
inserted at the head still shows the in-progress text `🔈 file`, and the
completion text `🔇 file` was written `len - soundCount` places further down
in the list formed by the previous entries and the line `Error` appended. -/
theorem playSound_error_statusList (a : App) (file e : String)
    (h : a.soundCount ≤ a.statusList.length) :
    playSound a file (some e) =
      some ⟨⟨"🔈 " ++ file, some (a.soundCount + 1)⟩ ::
        setTextAt (a.statusList ++ [⟨"🔴 " ++ e, none⟩])
          (a.statusList.length - a.soundCount) ("🔇 " ++ file), a.soundCount + 1⟩ := by
  have hmid : (Error (Begin a ("🔈 " ++ file)).1 e).statusList =
      ⟨"🔈 " ++ file, some (a.soundCount + 1)⟩ :: a.statusList ++ [⟨"🔴 " ++ e, none⟩] := by
    rw [Error_statusList, Begin_statusList]
  have hlen : (Error (Begin a ("🔈 " ++ file)).1 e).statusList.length =
      a.statusList.length + 2 := by
    rw [hmid]; simp
  have hu := Update_eq_some (Error (Begin a ("🔈 " ++ file)).1 e) (a.soundCount + 1)
    ("🔇 " ++ file) (by omega) (by omega)
  have hidx : a.statusList.length + 2 - (a.soundCount + 1) =
      (a.statusList.length - a.soundCount) + 1 := by omega
  have hc : (Error (Begin a ("🔈 " ++ file)).1 e).soundCount = a.soundCount + 1 := rfl
  rw [hlen, hmid, hidx, hc] at hu
  simpa [playSound, Begin_id, setTextAt] using hu

/-- C2, the code at the failing input. From the empty feed, a `playSound`
whose `controller.PlaySound` returns an error ends with the feed
`["🔈 a.mp3", "🔇 a.mp3"]`: the entry the call inserted (label 1) still shows
the in-progress text, the completion text went to the line that `Error` had
appended and erased the error text, so no entry labelled 1 carries the
completion text and no entry carries the error. -/
theorem playSound_error_misses_own_entry :
    playSound App.empty "a.mp3" (some "exit status 1") =
        some ⟨[⟨"🔈 a.mp3", some 1⟩, ⟨"🔇 a.mp3", none⟩], 1⟩ ∧
      (¬ ∃ a1, playSound App.empty "a.mp3" (some "exit status 1") = some a1 ∧
        ∃ e ∈ a1.statusList, e.owner = some 1 ∧ e.MainText = "🔇 a.mp3") ∧
      ¬ ∃ a1, playSound App.empty "a.mp3" (some "exit status 1") = some a1 ∧
        "🔴 exit status 1" ∈ a1.snapshot := by
  decide

/-- On the error path the download action returns right after `Error`: the
entry it inserted keeps the in-progress text, whatever the feed was. -/
theorem download_error_statusList (a : App) (file e : String) (Base : String → String) :
    download a file (.error e) Base =
      some ⟨⟨"⏬ downloading " ++ file, some (a.soundCount + 1)⟩ :: a.statusList ++
        [⟨"🔴 " ++ e, none⟩], a.soundCount + 1⟩ := by
  simp only [download]
  congr 1
  have := Error_statusList (Begin a ("⏬ downloading " ++ file)).1 e
  rw [Begin_statusList] at this
  cases hE : Error (Begin a ("⏬ downloading " ++ file)).1 e with
  | mk l c =>
    rw [hE] at this
    have hc : c = a.soundCount + 1 := by
      have := congrArg App.soundCount hE
      simpa [Error, Begin_soundCount] using this.symm
    simp only at this
    rw [this, hc]

/-- C3, the code at the failing input. From the empty feed, when
`controller.DownloadFile` returns an error the download action ends with the
feed `["⏬ downloading boom.mp3", "🔴 ..."]`: the entry it inserted still shows
the in-progress text and was replaced by no result text. -/
theorem download_error_keeps_in_progress_text (Base : String → String) :
    download App.empty "boom.mp3" (.error "unsupported protocol scheme") Base =
        some ⟨[⟨"⏬ downloading boom.mp3", some 1⟩,
          ⟨"🔴 unsupported protocol scheme", none⟩], 1⟩ :=
  rfl

/-- C7 (`Begin` inserts at the head). After the `Begin` block the status list
is the new item followed by the previous list, so the snapshot is the new text
followed by the previous snapshot, the length is one more, and the reference
returned is the new value of `soundCount`. -/
theorem Begin_inserts_at_head (a : App) (text : String) :
    (Begin a text).1.snapshot = text :: a.snapshot ∧
      (Begin a text).1.statusList = ⟨text, some (Begin a text).2⟩ :: a.statusList ∧
      (Begin a text).1.statusList.length = a.statusList.length + 1 ∧
      (Begin a text).2 = (Begin a text).1.soundCount := by
  refine ⟨?_, ?_, ?_, rfl⟩
  · simp [App.snapshot, Begin_statusList]
  · rw [Begin_statusList, Begin_id]
  · simp [Begin_statusList]

/-- C8 (monotonic growth). Along any run of feed steps from any feed, the
number of entries never decreases from one visited state to the next; a
`Begin` block makes the list one longer, and an `Update` block with an index
inside the list succeeds and keeps the length. -/
theorem feed_length_never_decreases (a : App) (trace : List FeedStep) :
    List.Chain' (fun x y : App => x.statusList.length ≤ y.statusList.length)
        (feedStates a trace) ∧
      (∀ text, ((FeedStep.begin text).apply a).map (fun x => x.statusList.length) =
        some (a.statusList.length + 1)) ∧
      (∀ id text, 1 ≤ id → id ≤ a.statusList.length →
        ((FeedStep.update id text).apply a).map (fun x => x.statusList.length) =
          some a.statusList.length) ∧
      (∀ id text a1, (FeedStep.update id text).apply a = some a1 →
        a1.statusList.length = a.statusList.length) := by
  refine ⟨feedStates_chain trace a, ?_, ?_, ?_⟩
  · intro text
    simp [FeedStep.apply, Begin_statusList]
  · intro id text h1 h2
    simp [FeedStep.apply, Update_eq_some a id text h1 h2, setTextAt_length]
  · intro id text a1 h
    exact (Update_length a a1 id text h).1

/-- C10 (the update index is in range). In every state reached from the empty
feed by `Begin`, `Update`, `Info` and `Error` steps, `soundCount` is at most the
length of the status list; hence for every reference handed out so far
(`1 ≤ id ≤ soundCount`) the index `len - id` lies in `0 .. len - 1` and the
`Update` block does not panic. -/
theorem update_index_in_range (trace : List FeedStep) (a : App)
    (h : runFeed App.empty trace = some a) :
    a.soundCount ≤ a.statusList.length ∧
      ∀ id : Nat, 1 ≤ id → id ≤ a.soundCount →
        0 ≤ GetItemCount a.statusList - (id : Int) ∧
        GetItemCount a.statusList - (id : Int) < GetItemCount a.statusList ∧
        ∀ text, ∃ a1, Update a id text = some a1 := by
  have hinv := runFeed_count_le trace App.empty a h (by simp [App.empty])
  refine ⟨hinv, ?_⟩
  intro id h1 h2
  refine ⟨?_, ?_, ?_⟩
  · simp only [GetItemCount]; omega
  · simp only [GetItemCount]; omega
  · intro text
    exact ⟨_, Update_eq_some a id text h1 (by omega)⟩

/-- C10 at a run with an `Error` append between two `Begin` blocks. -/
theorem update_index_in_range_witness :
    runFeed App.empty [.begin "🔈 a.mp3", .error "exit status 1", .begin "🔈 b.mp3",
        .update 1 "🔇 a.mp3"] =
        some ⟨[⟨"🔈 b.mp3", some 2⟩, ⟨"🔈 a.mp3", some 1⟩, ⟨"🔇 a.mp3", none⟩], 2⟩ ∧
      (2 ≤ 3 ∧
        ∀ id : Nat, 1 ≤ id → id ≤ 2 →
          0 ≤ GetItemCount [⟨"🔈 b.mp3", some 2⟩, ⟨"🔈 a.mp3", some 1⟩, ⟨"🔇 a.mp3", none⟩] -
            (id : Int) ∧
          GetItemCount [⟨"🔈 b.mp3", some 2⟩, ⟨"🔈 a.mp3", some 1⟩, ⟨"🔇 a.mp3", none⟩] -
            (id : Int) <
            GetItemCount [⟨"🔈 b.mp3", some 2⟩, ⟨"🔈 a.mp3", some 1⟩, ⟨"🔇 a.mp3", none⟩] ∧
          ∀ text, ∃ a1, Update
            ⟨[⟨"🔈 b.mp3", some 2⟩, ⟨"🔈 a.mp3", some 1⟩, ⟨"🔇 a.mp3", none⟩], 2⟩ id text =
              some a1) :=
  ⟨rfl, update_index_in_range
    [.begin "🔈 a.mp3", .error "exit status 1", .begin "🔈 b.mp3", .update 1 "🔇 a.mp3"]
    ⟨[⟨"🔈 b.mp3", some 2⟩, ⟨"🔈 a.mp3", some 1⟩, ⟨"🔇 a.mp3", none⟩], 2⟩ rfl⟩

/-! ## Lemmas on the `nowPlaying` map -/

theorem mem_keys_Delete (m : List (Nat × Bool)) (h k : Nat) :
    k ∈ keys (Delete m h) ↔ k ∈ keys m ∧ k ≠ h := by
  simp only [keys, Delete, List.mem_map, List.mem_filter, bne_iff_ne, ne_eq]
  constructor
  · rintro ⟨e, ⟨he, hne⟩, rfl⟩
    exact ⟨⟨e, he, rfl⟩, hne⟩
  · rintro ⟨⟨e, he, rfl⟩, hne⟩
    exact ⟨e, ⟨he, hne⟩, rfl⟩

theorem mem_keys_Store (m : List (Nat × Bool)) (h k : Nat) (v : Bool) :
    k ∈ keys (Store m h v) ↔ k = h ∨ k ∈ keys m := by
  have hd := mem_keys_Delete m h k
  simp only [keys] at hd
  simp only [Store, keys, List.map_cons, List.mem_cons, hd]
  constructor
  · rintro (hk | hk)
    · exact Or.inl hk
    · exact Or.inr hk.1
  · rintro (hk | hk)
    · exact Or.inl hk
    · by_cases hkh : k = h
      · exact Or.inl hkh
      · exact Or.inr ⟨hk, hkh⟩

theorem Delete_absent (m : List (Nat × Bool)) (h : Nat) (habs : h ∉ keys m) :
    Delete m h = m := by
  simp only [Delete, List.filter_eq_self, bne_iff_ne, ne_eq]
  intro e he hc
  apply habs
  rw [← hc]
  exact List.mem_map_of_mem _ he

theorem Delete_Delete (m : List (Nat × Bool)) (h : Nat) :
    Delete (Delete m h) h = Delete m h :=
  Delete_absent _ _ fun hc => ((mem_keys_Delete m h h).1 hc).2 rfl

theorem Run_nowPlaying (s : Audio) (cmd : Nat) (out : RunOutcome) :
    (Run s cmd out).1.nowPlaying = s.nowPlaying := by
  cases out <;> rfl

/-- What is left in the map after `Store` of a command, `Run`, and the
deferred `Delete`. -/
theorem mem_keys_after_play (m : List (Nat × Bool)) (h k : Nat) :
    k ∈ keys (Delete (Store m h true) h) ↔ k ∈ keys m ∧ k ≠ h := by
  rw [mem_keys_Delete, mem_keys_Store]
  constructor
  · rintro ⟨hk | hk, hne⟩
    · exact absurd hk hne
    · exact ⟨hk, hne⟩
  · rintro ⟨hk, hne⟩
    exact ⟨Or.inr hk, hne⟩

theorem playLocal_nowPlaying (s : Audio) (filepath : String) (out : RunOutcome) :
    (playLocal s filepath out).1.nowPlaying =
      Delete (Store s.nowPlaying s.heap.length true) s.heap.length := by
  simp [playLocal, Run_nowPlaying, Command]

theorem playRemote_nowPlaying (s : Audio) (env : RemoteEnv) (out : RunOutcome)
    (h : env.firstErr = none) :
    (playRemote s env out).1.nowPlaying =
      Delete (Store s.nowPlaying s.heap.length true) s.heap.length := by
  obtain ⟨p, g, r⟩ := env
  cases p <;> cases g <;> cases r <;> simp [RemoteEnv.firstErr] at h
  simp [playRemote, Run_nowPlaying, Command]

theorem playRemote_early (s : Audio) (env : RemoteEnv) (out : RunOutcome) (e : String)
    (h : env.firstErr = some e) : playRemote s env out = (s, some e) := by
  obtain ⟨p, g, r⟩ := env
  cases p <;> cases g <;> cases r <;> simp [RemoteEnv.firstErr] at h <;>
    simp [playRemote, h]

/-! ## Lemmas on `StopAll` -/

theorem Range_stopOne_started (s : Audio) (m : List (Nat × Bool))
    (acc : List (Nat × Option String))
    (h : ∀ k ∈ keys m, ∃ p, (s.heap[k]?).bind Cmd.Process = some p) :
    ∃ log, Range (stopOne s) m acc = some (acc ++ log) ∧ log.map Prod.fst = keys m := by
  induction m generalizing acc with
  | nil => exact ⟨[], by simp [Range], rfl⟩
  | cons e rest ih =>
    obtain ⟨k, v⟩ := e
    obtain ⟨p, hp⟩ := h k (by simp [keys])
    obtain ⟨log, hlog, hk⟩ := ih (acc ++ [(k, Signal p)]) fun k1 hk1 =>
      h k1 (by simp only [keys, List.map_cons, List.mem_cons]; exact Or.inr hk1)
    refine ⟨(k, Signal p) :: log, ?_, ?_⟩
    · simp only [Range, stopOne, hp]
      rw [hlog]
      simp
    · simp only [List.map_cons, hk, keys]

theorem Range_stopOne_nil (s : Audio) (m : List (Nat × Bool))
    (acc : List (Nat × Option String)) (k : Nat) (hk : k ∈ keys m)
    (hnil : (s.heap[k]?).bind Cmd.Process = none) :
    Range (stopOne s) m acc = none := by
  induction m generalizing acc with
  | nil => simp [keys] at hk
  | cons e rest ih =>
    obtain ⟨k1, v⟩ := e
    cases hp : (s.heap[k1]?).bind Cmd.Process with
    | none => simp only [Range, stopOne, hp]
    | some p =>
      have hne : k ≠ k1 := by
        intro hc
        rw [hc, hp] at hnil
        cases hnil
      have hk1 : k ∈ keys rest := by
        simp only [keys, List.map_cons, List.mem_cons] at hk
        rcases hk with hk | hk
        · exact absurd hk hne
        · exact hk
      simp only [Range, stopOne, hp]
      exact ih _ hk1

/-- When every registered command has a process, `StopAll` returns, leaves the
state as it was, and has called `Signal` on the registered commands, each once
in the order of the map, whatever error a call returned. -/
theorem StopAll_of_allStarted (s : Audio) (h : allStarted s = true) :
    ∃ log, StopAll s = some (s, log) ∧ log.map Prod.fst = keys s.nowPlaying := by
  simp only [allStarted, List.all_eq_true, Option.isSome_iff_exists] at h
  obtain ⟨log, hlog, hk⟩ := Range_stopOne_started s s.nowPlaying [] h
  exact ⟨log, by simp [StopAll, hlog], hk⟩

/-- When some registered command has no process, `StopAll` panics. -/
theorem StopAll_of_not_allStarted (s : Audio) (h : allStarted s = false) :
    StopAll s = none := by
  have h1 : ¬ ∀ k ∈ keys s.nowPlaying, ∃ p, (s.heap[k]?).bind Cmd.Process = some p := by
    intro hc
    have : allStarted s = true := by
      simp only [allStarted, List.all_eq_true, Option.isSome_iff_exists]
      exact hc
    rw [h] at this
    cases this
  simp only [not_forall, not_exists] at h1
  obtain ⟨k, hk, hnone⟩ := h1
  have hnil : (s.heap[k]?).bind Cmd.Process = none := by
    cases hp : (s.heap[k]?).bind Cmd.Process with
    | none => rfl
    | some p => exact absurd hp (hnone p)
  simp [StopAll, Range_stopOne_nil s s.nowPlaying [] k hk hnil]

/-- `Store` and `Delete` keep the keys of the map free of duplicates. -/
theorem keys_nodup_Delete (m : List (Nat × Bool)) (h : Nat) (hm : (keys m).Nodup) :
    (keys (Delete m h)).Nodup := by
  simp only [keys, Delete]
  exact List.Nodup.sublist (List.Sublist.map _ (List.filter_sublist _)) hm

theorem keys_nodup_Store (m : List (Nat × Bool)) (h : Nat) (v : Bool)
    (hm : (keys m).Nodup) : (keys (Store m h v)).Nodup := by
  have hd := keys_nodup_Delete m h hm
  have hn : h ∉ keys (Delete m h) := fun hc => ((mem_keys_Delete m h h).1 hc).2 rfl
  simp only [Store, keys, List.map_cons] at hd hn ⊢
  exact List.nodup_cons.2 ⟨hn, hd⟩

/-! ## The claims on the audio process registry -/

/-- C4 (play unregisters on every exit path). With `h` the address of the
command the call creates: after `playLocal` `h` is not in `nowPlaying` and every
other handle is registered exactly if it was before, whatever `cmd.Run`
did (failed to start, exited with or without error); the error returned is
the one of `cmd.Run`. For `playRemote` the same holds when the three calls
before `exec.Command` succeed, and when one of them fails the call returns
that error with the state untouched, no command having been created (so
the next free address is not registered either, as long as every registered
handle is an allocated command). -/
theorem play_unregisters_on_every_path (s : Audio) (filepath : String) (env : RemoteEnv)
    (out : RunOutcome) :
    (s.heap.length ∉ keys (playLocal s filepath out).1.nowPlaying ∧
      (∀ k, k ≠ s.heap.length →
        (k ∈ keys (playLocal s filepath out).1.nowPlaying ↔ k ∈ keys s.nowPlaying)) ∧
      (playLocal s filepath out).2 = (Run s s.heap.length out).2) ∧
    (env.firstErr = none →
      s.heap.length ∉ keys (playRemote s env out).1.nowPlaying ∧
      (playRemote s env out).2 = (Run s s.heap.length out).2) ∧
    (∀ k, k ≠ s.heap.length →
      (k ∈ keys (playRemote s env out).1.nowPlaying ↔ k ∈ keys s.nowPlaying)) ∧
    (∀ e, env.firstErr = some e → playRemote s env out = (s, some e)) ∧
    ((∀ k ∈ keys s.nowPlaying, k < s.heap.length) →
      s.heap.length ∉ keys (playRemote s env out).1.nowPlaying) := by
  refine ⟨⟨?_, ?_, ?_⟩, ?_, ?_, ?_, ?_⟩
  · rw [playLocal_nowPlaying, mem_keys_after_play]
    exact fun hc => hc.2 rfl
  · intro k hk
    rw [playLocal_nowPlaying, mem_keys_after_play]
    exact ⟨fun hc => hc.1, fun hc => ⟨hc, hk⟩⟩
  · cases out <;> rfl
  · intro henv
    refine ⟨?_, ?_⟩
    · rw [playRemote_nowPlaying s env out henv, mem_keys_after_play]
      exact fun hc => hc.2 rfl
    · obtain ⟨p, g, r⟩ := env
      cases p <;> cases g <;> cases r <;> simp [RemoteEnv.firstErr] at henv
      cases out <;> rfl
  · intro k hk
    cases henv : env.firstErr with
    | none =>
      rw [playRemote_nowPlaying s env out henv, mem_keys_after_play]
      exact ⟨fun hc => hc.1, fun hc => ⟨hc, hk⟩⟩
    | some e => rw [playRemote_early s env out e henv]
  · intro e henv
    exact playRemote_early s env out e henv
  · intro hwf
    cases henv : env.firstErr with
    | none =>
      rw [playRemote_nowPlaying s env out henv, mem_keys_after_play]
      exact fun hc => hc.2 rfl
    | some e =>
      rw [playRemote_early s env out e henv]
      exact fun hc => Nat.lt_irrefl _ (hwf _ hc)

/-- C5, the code at the failing input. After `playLocal` has stored its command
and before `cmd.Run` has started the process, the command is in `nowPlaying`
with a nil `Process`. A `StopAll` in that state, here with another command
playing, panics on the nil pointer instead of returning after one signal to
each registered command; without the second `register` it returns. -/
theorem StopAll_panics_on_unstarted_command :
    runAudio Machine.init [.create ["a.mp3"], .register 0, .start 0 true,
        .create ["b.mp3"], .register 1] =
        some ⟨⟨[⟨["mpg321", "a.mp3"], some .running⟩, ⟨["mpg321", "b.mp3"], none⟩], [(1, true), (0, true)]⟩,
          [.started, .registered]⟩ ∧
      StopAll ⟨[⟨["mpg321", "a.mp3"], some .running⟩, ⟨["mpg321", "b.mp3"], none⟩], [(1, true), (0, true)]⟩ =
        none ∧
      StopAll ⟨[⟨["mpg321", "a.mp3"], some .running⟩, ⟨["mpg321", "b.mp3"], none⟩], [(0, true)]⟩ =
        some (⟨[⟨["mpg321", "a.mp3"], some .running⟩, ⟨["mpg321", "b.mp3"], none⟩], [(0, true)]⟩,
          [(0, none)]) := by
  decide

/-- C6, the code at the failing input. The steps `create`, `register` of one
`playLocal` call lead to a state in which command 0 is in `nowPlaying` while its
`Process` is nil, so not every registered command has a started process; the
signal of `StopAll` has no process to act on and the call panics, there and
also after a `Start` that failed, while after a `Start` that succeeded it
returns. -/
theorem registered_before_started :
    ∃ m, runAudio Machine.init [.create ["a.mp3"], .register 0] = some m ∧
      0 ∈ keys m.audio.nowPlaying ∧
      (m.audio.heap[0]?).bind Cmd.Process = none ∧
      allStarted m.audio = false ∧
      AudioStep.stopAll.apply m = none ∧
      runAudio m [.start 0 false, .stopAll] = none ∧
      (runAudio m [.start 0 true, .stopAll]).isSome = true :=
  ⟨⟨⟨[⟨["mpg321", "a.mp3"], none⟩], [(0, true)]⟩, [.registered]⟩, by decide, by decide, by decide,
    by decide, by decide, by decide, by decide⟩

/-- C9 (`Delete` is idempotent and local). Deleting a handle that is absent
leaves the map as it is, deleting twice equals deleting once, the handle is
absent afterwards, and every other handle is in the map exactly if it was. -/
theorem Delete_idempotent_and_local (m : List (Nat × Bool)) (h : Nat) :
    (h ∉ keys m → Delete m h = m) ∧
      Delete (Delete m h) h = Delete m h ∧
      h ∉ keys (Delete m h) ∧
      (∀ k, k ≠ h → (k ∈ keys (Delete m h) ↔ k ∈ keys m)) ∧
      (∀ k, k ≠ h → (k ∈ keys (Delete (Delete m h) h) ↔ k ∈ keys m)) := by
  refine ⟨Delete_absent m h, Delete_Delete m h, ?_, ?_, ?_⟩
  · exact fun hc => ((mem_keys_Delete m h h).1 hc).2 rfl
  · intro k hk
    rw [mem_keys_Delete]
    exact ⟨fun hc => hc.1, fun hc => ⟨hc, hk⟩⟩
  · intro k hk
    rw [Delete_Delete, mem_keys_Delete]
    exact ⟨fun hc => hc.1, fun hc => ⟨hc, hk⟩⟩

end Soundboard
